import Mathlib

/-!
Shallow embedding of `usage/to_pdf.py`: the script natural-sorts the
subfolders of a download directory, optionally filters them by a comma-separated
allow-list, globs the image files of each kept folder with lowercase and
uppercase extension patterns, natural-sorts them, decodes each image skipping
failures, converts non-RGB images to RGB, and saves a single PDF directly to the
destination path.

Python strings are modelled as `List Char`.  Machine behaviour that can raise an
exception (`int()` on non-decimal digit text, `<` between `int` and `str`,
`Image.open`) is modelled with `Option`.  The character-class predicates are
faithful on ASCII and on the non-ASCII characters used in this development;
the relevant Unicode facts are recorded at each definition.
-/

/-- Python strings, modelled as lists of characters. -/
abbrev Str := List Char

/-- The characters of a Lean string literal, for writing concrete inputs. -/
def str (s : String) : Str := s.data

/-- Python regex `\d` (as used in `re.split(r'(\d+)', s)`): matches a Unicode
decimal digit, category Nd.  On ASCII these are exactly '0'-'9'.  The
superscript digits U+00B9/U+00B2/U+00B3 are category No and are NOT matched. -/
def reDigit (c : Char) : Bool := c.isDigit

/-- Python `str.isdigit` on one character: true for Nd digits and additionally
for characters with `Numeric_Type=Digit`, such as the superscript digits
U+00B9 ('¹'), U+00B2 ('²') and U+00B3 ('³'), which `\d` does not match and
which `int()` rejects with `ValueError`. -/
def pyIsDigit (c : Char) : Bool := c.isDigit || c = '¹' || c = '²' || c = '³'

/-- `re.split(r'(\d+)', s)`: the pieces of `s`, alternating (possibly empty)
digit-free text at even positions with maximal nonempty digit runs at odd
positions; the result is never empty.  A digit run is extended through every
following digit character, so runs are maximal: `splitDigits_digit_cons` below
restates this head case with `takeWhile`/`dropWhile`. -/
def splitDigits : Str → List Str
  | [] => [[]]
  | c :: rest =>
    if reDigit c then
      match rest, splitDigits rest with
      | [], _ => [[], [c], []]
      | r :: _, ps =>
        if reDigit r then
          match ps with
          | _ :: d :: tail => [] :: (c :: d) :: tail
          | _ => [[c]]
        else [] :: [c] :: ps
    else
      match splitDigits rest with
      | [] => [[c]]
      | p :: ps => (c :: p) :: ps

/-- One element of the Python sort key: an `int` from a digit run, or a
lowercased string. -/
inductive KeyElem where
  | str (t : Str)
  | num (n : Nat)
deriving DecidableEq

/-- Python `int(text)` on text already known nonempty: succeeds exactly when
every character is an Nd digit (ASCII in our model), else raises `ValueError`
(`none`).  The numeric value is the usual base-10 reading. -/
def intParse (t : Str) : Option Nat :=
  if t ≠ [] ∧ ∀ c ∈ t, reDigit c = true then
    some (t.foldl (fun acc c => 10 * acc + (c.toNat - 48)) 0)
  else none

/-- One piece of the key: `int(text) if text.isdigit() else text.lower()`.
`text.isdigit()` is true iff the text is nonempty and every character passes
`str.isdigit`; `none` models the `ValueError` `int` raises on digit-like
non-Nd text such as "²". -/
def pieceVal (t : Str) : Option KeyElem :=
  if t ≠ [] ∧ ∀ c ∈ t, pyIsDigit c = true then (intParse t).map .num
  else some (.str (t.map Char.toLower))

/-- Evaluate `f` left to right over a list, propagating failure (an exception). -/
def mapOpt (f : α → Option β) : List α → Option (List β)
  | [] => some []
  | a :: l =>
    match f a, mapOpt f l with
    | some b, some bs => some (b :: bs)
    | _, _ => none

/-- `natural_sort_key(s)` (to_pdf.py lines 13-18), `none` when `int` raises. -/
def natural_sort_key (s : Str) : Option (List KeyElem) :=
  mapOpt pieceVal (splitDigits s)

/-- Python `<` on strings: lexicographic by code point. -/
def strLtB : Str → Str → Bool
  | [], [] => false
  | [], _ :: _ => true
  | _ :: _, [] => false
  | a :: as, b :: bs =>
    if a.toNat < b.toNat then true
    else if b.toNat < a.toNat then false
    else strLtB as bs

/-- Python `<` on two key elements; `none` models the `TypeError` raised when
an `int` meets a `str` (their `==` is `False`, so `<` is consulted). -/
def keyElemLt : KeyElem → KeyElem → Option Bool
  | .str a, .str b => some (strLtB a b)
  | .num a, .num b => some (decide (a < b))
  | _, _ => none

/-- Python `<` on two keys (lists): skip `==` elements, then compare the first
differing pair with `<`; a shorter list that is a proper prefix is smaller. -/
def keyLt : List KeyElem → List KeyElem → Option Bool
  | [], [] => some false
  | [], _ :: _ => some true
  | _ :: _, [] => some false
  | a :: as, b :: bs => if a = b then keyLt as bs else keyElemLt a b

/-- Total Bool version of `keyLt` used inside the sort; the `false` default is
never reached on keys actually produced by `natural_sort_key` (they alternate
str/num in lockstep, see `keyLt_isSome_of_alt`). -/
def keyLtB (k1 k2 : List KeyElem) : Bool := (keyLt k1 k2).getD false

/-- Stable insertion: place `x` before the first `y` with `le x y`.  With
`le x y = !(lt y x)` this realizes exactly the order of Python's stable sort. -/
def insertLe (le : α → α → Bool) (x : α) : List α → List α
  | [] => [x]
  | y :: ys => if le x y then x :: y :: ys else y :: insertLe le x ys

/-- Stable sort by a boolean "may come before" relation. -/
def isort (le : α → α → Bool) : List α → List α
  | [] => []
  | x :: xs => insertLe le x (isort le xs)

/-- An element paired with its sort key; Python's `list.sort(key=...)` computes
all keys first (raising if any key computation raises). -/
def keyPair (s : Str) : Option (Str × List KeyElem) :=
  (natural_sort_key s).map (fun k => (s, k))

/-- "p may come before q": the key of `q` is not `<` the key of `p`. -/
def pairLe (p q : Str × List KeyElem) : Bool := !(keyLtB q.2 p.2)

/-- `l.sort(key=natural_sort_key)`: compute every key, then sort stably,
comparing keys with `<`.  `none` models a raised key computation. -/
def sortNatural (l : List Str) : Option (List Str) :=
  (mapOpt keyPair l).map (fun prs => (isort pairLe prs).map Prod.fst)

/-- The supported format extensions, in source order (line 25). -/
def supported_formats : List Str :=
  [str "jpg", str "jpeg", str "png", str "bmp", str "tiff", str "tif", str "webp"]

/-- POSIX `glob.glob` match of the pattern `*.<ext>` against a file name: the
name must end with `"." ++ ext`, compared case-sensitively, and — because the
pattern does not start with a dot — a name starting with '.' (hidden file) is
never matched. -/
def globMatch (ext : Str) (name : Str) : Bool :=
  (match name with | [] => false | c :: _ => decide (c ≠ '.')) &&
  List.isSuffixOf ('.' :: ext) name

/-- `fmt.upper()` on a pattern: uppercases the extension letters. -/
def upperExt (e : Str) : Str := e.map Char.toUpper

/-- The files of one folder matched by the glob loop (lines 45-48), in the
order the code accumulates them: for each format, first the lowercase then the
uppercase pattern, each filtering the directory enumeration in order. -/
def matchedNames (entries : List Str) : List Str :=
  (supported_formats.map (fun ext =>
    entries.filter (globMatch ext) ++ entries.filter (globMatch (upperExt ext)))).flatten

/-- `os.path.join(a, b)` on POSIX with a relative second component. -/
def joinPath (a b : Str) : Str := a ++ '/' :: b

/-- One folder's contribution: glob the folder, then
`folder_images.sort(key=natural_sort_key)` on the full paths (lines 45-51). -/
def folderImages (dir folder : Str) (entries : List Str) : Option (List Str) :=
  sortNatural ((matchedNames entries).map (joinPath (joinPath dir folder)))

/-- The filesystem as the script observes it: whether the download directory
exists, its entries in `os.listdir` order, which entries are directories, and
each folder's entries in directory-enumeration (glob) order. -/
structure FS where
  rootExists : Bool
  dir : Str
  listing : List Str
  isDir : Str → Bool
  filesOf : Str → List Str

/-- Python `s.split(',')`. -/
def splitComma : Str → List Str
  | [] => [[]]
  | c :: rest =>
    if c = ',' then [] :: splitComma rest
    else
      match splitComma rest with
      | [] => [[c]]
      | p :: ps => (c :: p) :: ps

/-- ASCII whitespace, as stripped by Python `str.strip()`. -/
def isSpaceChar (c : Char) : Bool :=
  c = ' ' || c = '\t' || c = '\n' || c = '\r' || c = '\x0b' || c = '\x0c'

/-- Python `s.strip()` (ASCII whitespace in our model). -/
def pyStrip (s : Str) : Str :=
  ((s.dropWhile isSpaceChar).reverse.dropWhile isSpaceChar).reverse

/-- Lines 33-37: when `album_ids` is truthy (present and nonempty), keep only
the already-sorted subfolders whose name equals some comma-split, stripped
allow-list entry; otherwise keep all. -/
def applyAllowList (subs : List Str) (albumIds : Option Str) : List Str :=
  match albumIds with
  | none => subs
  | some ids =>
    if ids = [] then subs
    else subs.filter (fun f => decide (f ∈ (splitComma ids).map pyStrip))

/-- `get_all_image_files_sorted(download_dir, album_ids)` (lines 20-59):
list the root, keep directories, natural-sort them, apply the allow-list,
then concatenate each folder's sorted image paths; a folder with no matches
contributes nothing.  `none` models a raised sort key exception. -/
def get_all_image_files_sorted (fs : FS) (albumIds : Option Str) : Option (List Str) := do
  let subs := fs.listing.filter fs.isDir
  let sorted ← sortNatural subs
  let kept := applyAllowList sorted albumIds
  let perFolder ← mapOpt (fun f => folderImages fs.dir f (fs.filesOf f)) kept
  some perFolder.flatten

/-- PIL color modes covered by the model (palette/CMYK inputs are out of
scope of the claims). -/
inductive PMode where
  | RGB | RGBA | L
deriving DecidableEq

/-- One pixel.  RGB pixels carry `a = 255`; L pixels carry the gray value in
`r` with the other channels unused (set equal). -/
structure Pixel where
  r : Nat
  g : Nat
  b : Nat
  a : Nat
deriving DecidableEq

/-- A decoded PIL image: color mode plus pixel data in raster order. -/
structure Image where
  mode : PMode
  pix : List Pixel
deriving DecidableEq

/-- `img.convert('RGB')`: RGBA drops the alpha channel without compositing
(the RGB channels pass through unchanged), L replicates the gray value into
all three channels.  A pure function, hence deterministic. -/
def convertRGB (img : Image) : Image :=
  match img.mode with
  | .RGB => img
  | .RGBA => ⟨.RGB, img.pix.map fun p => ⟨p.r, p.g, p.b, 255⟩⟩
  | .L => ⟨.RGB, img.pix.map fun p => ⟨p.r, p.r, p.r, 255⟩⟩

/-- Lines 80-81: `if img.mode != 'RGB': img = img.convert('RGB')`. -/
def normalizeRGB (img : Image) : Image :=
  if img.mode = PMode.RGB then img else convertRGB img

/-- The per-entry loop of `convert_all_images_to_single_pdf` (lines 76-90):
`dec` is `Image.open` (`none` = raised exception).  Returns the loaded,
normalized pages in order together with the paths whose decode failed — each
failure is printed ("recorded") and the entry skipped, the loop continues. -/
def loadLoop (dec : Str → Option Image) : List Str → List Image × List Str
  | [] => ([], [])
  | p :: ps =>
    let rest := loadLoop dec ps
    match dec p with
    | some img => (normalizeRGB img :: rest.1, rest.2)
    | none => (rest.1, p :: rest.2)

/-- The output artifact: one page per surviving image, in order. -/
structure PdfDoc where
  pages : List Image
deriving DecidableEq

/-- `convert_all_images_to_single_pdf(image_files, output_pdf_path)`
(lines 61-116) as a pure function.  `saveOk` is whether `first_image.save`
succeeds (its exception is caught by the outer `try`, returning `False`).
Returns the boolean result and the document completed on success. -/
def convert_all_images_to_single_pdf (dec : Str → Option Image) (files : List Str)
    (saveOk : Bool) : Bool × Option PdfDoc :=
  if files = [] then (false, none)
  else
    let r := loadLoop dec files
    if r.1 = [] then (false, none)
    else if saveOk then (true, some ⟨r.1⟩) else (false, none)

/-- The distinguished failure kinds of the run. -/
inductive RunError where
  | rootNotFound
  | noImagesFound
  | noPagesDecoded
  | writeError
deriving DecidableEq

/-- `main()` from the root-existence check onwards (lines 165-214): check the
root, discover, fail on an empty sequence, convert, fail when nothing decoded
or the save failed.  The second component is the completed artifact at the
output path (`none` on every fatal error; the byte-level content of a failed
direct save is modelled separately by `saveDirect`).  The outer `Option` is
`none` when a sort key computation raises. -/
def mainRun (fs : FS) (albumIds : Option Str) (dec : Str → Option Image)
    (saveOk : Bool) : Option (Except RunError PdfDoc × Option PdfDoc) :=
  if fs.rootExists = false then some (.error .rootNotFound, none)
  else
    match get_all_image_files_sorted fs albumIds with
    | none => none
    | some files =>
      if files = [] then some (.error .noImagesFound, none)
      else
        let r := loadLoop dec files
        if r.1 = [] then some (.error .noPagesDecoded, none)
        else if saveOk then some (.ok ⟨r.1⟩, some ⟨r.1⟩)
        else some (.error .writeError, none)

/-- Line 99: `first_image.save(output_pdf_path, ...)` opens the destination
path itself and streams bytes into it; there is no temporary file and no
rename.  `failAfter = some k` models an I/O error after `k` bytes were
written: the destination is left holding the partial prefix.  Returns the
updated disk contents and whether the save succeeded. -/
def saveDirect (disk : Str → Option (List Nat)) (path : Str) (content : List Nat)
    (failAfter : Option Nat) : (Str → Option (List Nat)) × Bool :=
  match failAfter with
  | none => (fun q => if q = path then some content else disk q, true)
  | some k => (fun q => if q = path then some (content.take k) else disk q, false)

/-- Shape invariant of `splitDigits` output: digit-free pieces at even
positions alternating with nonempty all-digit runs at odd positions. -/
inductive AltPieces : List Str → Prop
  | single (t : Str) (ht : ∀ c ∈ t, reDigit c = false) : AltPieces [t]
  | cons (t d : Str) (rest : List Str) (ht : ∀ c ∈ t, reDigit c = false)
      (hne : d ≠ []) (hd : ∀ c ∈ d, reDigit c = true) (h : AltPieces rest) :
      AltPieces (t :: d :: rest)

/-- Shape invariant of keys produced by `natural_sort_key`: strings at even
positions, ints at odd positions, in lockstep. -/
inductive AltKey : List KeyElem → Prop
  | single (t : Str) : AltKey [KeyElem.str t]
  | cons (t : Str) (n : Nat) (rest : List KeyElem) (h : AltKey rest) :
      AltKey (KeyElem.str t :: KeyElem.num n :: rest)

/-- Modelled from the spec's words for comparison ("extension matches —
case-insensitively — one of the fixed allow-set"): the text after the last
dot of the name, lowercased, lies in the allow-set. -/
def ciExtMatch (name : Str) : Bool :=
  decide ('.' ∈ name) &&
  decide (((name.reverse.takeWhile (fun c => decide (c ≠ '.'))).reverse.map Char.toLower)
    ∈ supported_formats)

/-- A sample RGB image used in concrete runs. -/
def imgRGB : Image := ⟨.RGB, [⟨1, 2, 3, 255⟩]⟩

/-- A sample RGBA image with one opaque and one transparent pixel. -/
def imgRGBA : Image := ⟨.RGBA, [⟨10, 20, 30, 255⟩, ⟨40, 50, 60, 0⟩]⟩

/-- A concrete decoder failing exactly on the path "d/f/bad.jpg". -/
def dec0 : Str → Option Image :=
  fun p => if p = str "d/f/bad.jpg" then none else some imgRGB

/-- The concrete entry list used by the aggregation witnesses. -/
def files0 : List Str := [str "d/f/1.jpg", str "d/f/bad.jpg", str "d/f/2.jpg"]

/-- An initially empty disk. -/
def disk0 : Str → Option (List Nat) := fun _ => none

/-- Two filesystems with identical directory contents whose enumerations
differ only in order; the folder names f1 and f01 have equal sort keys. -/
def fsTieA : FS := ⟨true, str "d", [str "f1", str "f01"], fun _ => true, fun _ => [str "1.jpg"]⟩

/-- `fsTieA` with the opposite `os.listdir` order. -/
def fsTieB : FS := ⟨true, str "d", [str "f01", str "f1"], fun _ => true, fun _ => [str "1.jpg"]⟩

/-- A filesystem with distinct-key folder names, listed in one order... -/
def fsDisA : FS :=
  ⟨true, str "d", [str "b", str "a"], fun _ => true, fun f => if f = str "a" then [str "2.jpg", str "10.jpg"] else [str "x.png"]⟩

/-- ...and the same contents enumerated in another order. -/
def fsDisB : FS :=
  ⟨true, str "d", [str "a", str "b"], fun _ => true, fun f => if f = str "a" then [str "10.jpg", str "2.jpg"] else [str "x.png"]⟩

/-- A filesystem whose root exists with one kept folder holding no image. -/
def fsEmptyImgs : FS := ⟨true, str "d", [str "f"], fun _ => true, fun _ => [str "notes.txt"]⟩

/-- A filesystem whose root path does not exist. -/
def fsNoRoot : FS := ⟨false, str "d", [str "f"], fun _ => true, fun _ => [str "1.jpg"]⟩

/-! ### Structure of `splitDigits` and the keys it produces -/

/-- The head case of `splitDigits` on a digit: the first run is the maximal
digit run and splitting resumes after it. -/
theorem splitDigits_digit_cons : ∀ (rest : Str) (c : Char), reDigit c = true →
    splitDigits (c :: rest)
      = [] :: (c :: rest).takeWhile reDigit :: splitDigits ((c :: rest).dropWhile reDigit) := by
  intro rest
  induction rest with
  | nil =>
    intro c hc
    have hout : splitDigits [c] = if reDigit c then [[], [c], []] else [[c]] := rfl
    rw [hout, if_pos hc, List.takeWhile_cons_of_pos hc, List.dropWhile_cons_of_pos hc]
    rfl
  | cons r rest' ih =>
    intro c hc
    have hout : splitDigits (c :: r :: rest')
        = if reDigit c then
            (if reDigit r then
              match splitDigits (r :: rest') with
              | _ :: d :: tail => [] :: (c :: d) :: tail
              | _ => [[c]]
            else [] :: [c] :: splitDigits (r :: rest'))
          else match splitDigits (r :: rest') with
            | [] => [[c]]
            | p :: ps => (c :: p) :: ps := rfl
    by_cases hr : reDigit r = true
    · have hbr := ih r hr
      rw [hout, if_pos hc, if_pos hr, hbr, List.takeWhile_cons_of_pos hc,
        List.dropWhile_cons_of_pos hc, List.takeWhile_cons_of_pos hr]
    · rw [hout, if_pos hc, if_neg hr, List.takeWhile_cons_of_pos hc,
        List.dropWhile_cons_of_pos hc, List.takeWhile_cons_of_neg hr,
        List.dropWhile_cons_of_neg hr]

/-- The head case of `splitDigits` on a non-digit: the character is prepended
to the first (text) piece. -/
theorem splitDigits_nondigit_cons {c : Char} (rest : Str) (hc : reDigit c = false) :
    splitDigits (c :: rest)
      = match splitDigits rest with
        | [] => [[c]]
        | p :: ps => (c :: p) :: ps := by
  simp only [splitDigits, hc, Bool.false_eq_true, if_false]

theorem splitDigits_alt (s : Str) : AltPieces (splitDigits s) := by
  have H : ∀ n, ∀ s : Str, s.length ≤ n → AltPieces (splitDigits s) := by
    intro n
    induction n with
    | zero =>
      intro s hs
      rw [List.length_eq_zero.mp (Nat.le_zero.mp hs)]
      exact AltPieces.single [] (by simp)
    | succ n ih =>
      intro s hs
      cases s with
      | nil => exact AltPieces.single [] (by simp)
      | cons c rest =>
        by_cases hc : reDigit c = true
        · rw [splitDigits_digit_cons rest c hc]
          refine AltPieces.cons _ _ _ (by simp) ?_ ?_ ?_
          · rw [List.takeWhile_cons_of_pos hc]
            exact List.cons_ne_nil _ _
          · intro x hx
            exact List.mem_takeWhile_imp hx
          · refine ih _ ?_
            calc ((c :: rest).dropWhile reDigit).length
                ≤ rest.length := by
                  rw [List.dropWhile_cons_of_pos hc]
                  exact (List.dropWhile_sublist reDigit).length_le
              _ ≤ n := Nat.le_of_succ_le_succ hs
        · have hcf : reDigit c = false := by
            cases h : reDigit c
            · rfl
            · exact absurd h hc
          rw [splitDigits_nondigit_cons rest hcf]
          have ihrest : AltPieces (splitDigits rest) :=
            ih rest (Nat.le_of_succ_le_succ hs)
          rcases hps : splitDigits rest with - | ⟨p, ps⟩
          · exact AltPieces.single [c] (by
              intro x hx
              rcases List.mem_singleton.mp hx with rfl
              exact hcf)
          · rw [hps] at ihrest
            cases ihrest
            · rename_i ht
              refine AltPieces.single (c :: p) ?_
              intro x hx
              rcases List.mem_cons.mp hx with rfl | hx
              · exact hcf
              · exact ht x hx
            · rename_i d rest' hne hd hrest ht
              refine AltPieces.cons (c :: p) d rest' ?_ hne hd hrest
              intro x hx
              rcases List.mem_cons.mp hx with rfl | hx
              · exact hcf
              · exact ht x hx
  exact H s.length s le_rfl

theorem splitDigits_chars (s : Str) : ∀ t ∈ splitDigits s, ∀ c ∈ t, c ∈ s := by
  have H : ∀ n, ∀ s : Str, s.length ≤ n → ∀ t ∈ splitDigits s, ∀ c ∈ t, c ∈ s := by
    intro n
    induction n with
    | zero =>
      intro s hs
      rw [List.length_eq_zero.mp (Nat.le_zero.mp hs)]
      simp [splitDigits]
    | succ n ih =>
      intro s hs
      cases s with
      | nil => simp [splitDigits]
      | cons c rest =>
        by_cases hc : reDigit c = true
        · rw [splitDigits_digit_cons rest c hc]
          intro t ht x hx
          rcases List.mem_cons.mp ht with rfl | ht
          · cases hx
          rcases List.mem_cons.mp ht with rfl | ht
          · exact (List.takeWhile_sublist reDigit).subset hx
          · have hlen : ((c :: rest).dropWhile reDigit).length ≤ n := by
              calc ((c :: rest).dropWhile reDigit).length
                  ≤ rest.length := by
                    rw [List.dropWhile_cons_of_pos hc]
                    exact (List.dropWhile_sublist reDigit).length_le
                _ ≤ n := Nat.le_of_succ_le_succ hs
            exact (List.dropWhile_sublist reDigit).subset
              (ih _ hlen t ht x hx)
        · have hcf : reDigit c = false := by
            cases h : reDigit c
            · rfl
            · exact absurd h hc
          rw [splitDigits_nondigit_cons rest hcf]
          have ihrest := ih rest (Nat.le_of_succ_le_succ hs)
          intro t ht x hx
          rcases hps : splitDigits rest with - | ⟨p, ps⟩
          · rw [hps] at ht
            rcases List.mem_singleton.mp ht with rfl
            rcases List.mem_singleton.mp hx with rfl
            exact List.mem_cons_self _ _
          · rw [hps] at ht
            rcases List.mem_cons.mp ht with rfl | ht
            · rcases List.mem_cons.mp hx with rfl | hx
              · exact List.mem_cons_self _ _
              · exact List.mem_cons_of_mem _
                  (ihrest p (hps ▸ List.mem_cons_self _ _) x hx)
            · exact List.mem_cons_of_mem _
                (ihrest t (hps ▸ List.mem_cons_of_mem _ ht) x hx)
  exact H s.length s le_rfl

theorem reDigit_pyIsDigit {c : Char} (h : reDigit c = true) : pyIsDigit c = true := by
  simp [pyIsDigit, reDigit] at h ⊢
  exact Or.inl (Or.inl (Or.inl h))

theorem mapOpt_nil {f : α → Option β} : mapOpt f [] = some [] := rfl

theorem mapOpt_cons_none {f : α → Option β} {a : α} {l : List α} (ha : f a = none) :
    mapOpt f (a :: l) = none := by
  unfold mapOpt
  rw [ha]

theorem mapOpt_cons_some {f : α → Option β} {a : α} {l : List α} {b : β} (ha : f a = some b) :
    mapOpt f (a :: l) = (mapOpt f l).map (fun bs => b :: bs) := by
  have he : mapOpt f (a :: l) =
      match f a, mapOpt f l with
      | some b, some bs => some (b :: bs)
      | _, _ => none := rfl
  rw [he, ha]
  cases mapOpt f l <;> rfl

/-- A digit run evaluates to its `int`. -/
theorem pieceVal_digitrun {d : Str} (hne : d ≠ []) (hd : ∀ c ∈ d, reDigit c = true) :
    pieceVal d = some (KeyElem.num (d.foldl (fun acc c => 10 * acc + (c.toNat - 48)) 0)) := by
  have h1 : d ≠ [] ∧ ∀ c ∈ d, pyIsDigit c = true :=
    ⟨hne, fun c hc => reDigit_pyIsDigit (hd c hc)⟩
  have h2 : d ≠ [] ∧ ∀ c ∈ d, reDigit c = true := ⟨hne, hd⟩
  unfold pieceVal intParse
  rw [if_pos h1, if_pos h2]
  rfl

/-- A digit-free piece, when it evaluates at all, evaluates to its lowercased
string. -/
theorem pieceVal_nondigit_of_some {t : Str} {e : KeyElem}
    (ht : ∀ c ∈ t, reDigit c = false) (h : pieceVal t = some e) :
    e = KeyElem.str (t.map Char.toLower) := by
  by_cases hc : t ≠ [] ∧ ∀ c ∈ t, pyIsDigit c = true
  · exfalso
    have hcond : ¬(t ≠ [] ∧ ∀ c ∈ t, reDigit c = true) := by
      rintro ⟨hne, hall⟩
      rcases List.exists_mem_of_ne_nil t hne with ⟨c, hcm⟩
      have h1 := hall c hcm
      rw [ht c hcm] at h1
      cases h1
    unfold pieceVal intParse at h
    rw [if_pos hc, if_neg hcond] at h
    cases h
  · unfold pieceVal at h
    rw [if_neg hc] at h
    exact (Option.some_inj.mp h).symm

/-- A digit-free piece always evaluates when the name has no digit-like
non-decimal characters. -/
theorem pieceVal_nondigit_of_chars {t : Str} (ht : ∀ c ∈ t, reDigit c = false)
    (hchar : ∀ c ∈ t, pyIsDigit c = true → reDigit c = true) :
    pieceVal t = some (KeyElem.str (t.map Char.toLower)) := by
  have hcond : ¬(t ≠ [] ∧ ∀ c ∈ t, pyIsDigit c = true) := by
    rintro ⟨hne, hall⟩
    rcases List.exists_mem_of_ne_nil t hne with ⟨c, hc⟩
    have h1 := hchar c hc (hall c hc)
    rw [ht c hc] at h1
    cases h1
  unfold pieceVal
  rw [if_neg hcond]

/-- On pieces satisfying the alternation invariant whose digit-like characters
are all decimal digits, every piece evaluates, to a string at even positions
and an int at odd ones. -/
theorem mapOpt_pieceVal_of_alt {ps : List Str} (hps : AltPieces ps)
    (hchar : ∀ t ∈ ps, ∀ c ∈ t, pyIsDigit c = true → reDigit c = true) :
    ∃ k, mapOpt pieceVal ps = some k ∧ AltKey k := by
  induction hps with
  | single t ht =>
    refine ⟨[KeyElem.str (t.map Char.toLower)], ?_, AltKey.single _⟩
    rw [mapOpt_cons_some (pieceVal_nondigit_of_chars ht
      (hchar t (List.mem_singleton_self t))), mapOpt_nil]
    rfl
  | cons t d rest ht hne hd hrest ih =>
    have hchar' : ∀ u ∈ rest, ∀ c ∈ u, pyIsDigit c = true → reDigit c = true := fun u hu c hc =>
      hchar u (List.mem_cons_of_mem _ (List.mem_cons_of_mem _ hu)) c hc
    rcases ih hchar' with ⟨k, hk, halt⟩
    refine ⟨_, ?_, AltKey.cons (t.map Char.toLower)
      (d.foldl (fun acc c => 10 * acc + (c.toNat - 48)) 0) k halt⟩
    rw [mapOpt_cons_some (pieceVal_nondigit_of_chars ht
      (hchar t (List.mem_cons_self _ _))),
      mapOpt_cons_some (pieceVal_digitrun hne hd), hk]
    rfl

/-- Whenever the key computation succeeds, the key alternates str/int. -/
theorem altKey_of_mapOpt {ps : List Str} (hps : AltPieces ps) {k : List KeyElem}
    (hk : mapOpt pieceVal ps = some k) : AltKey k := by
  induction hps generalizing k with
  | single t ht =>
    rcases he : pieceVal t with - | e
    · rw [mapOpt_cons_none he] at hk
      cases hk
    · rw [mapOpt_cons_some he, mapOpt_nil] at hk
      simp only [Option.map_some', Option.some.injEq] at hk
      rcases pieceVal_nondigit_of_some ht he with rfl
      rw [← hk]
      exact AltKey.single _
  | cons t d rest ht hne hd hrest ih =>
    rcases he : pieceVal t with - | e
    · rw [mapOpt_cons_none he] at hk
      cases hk
    rcases pieceVal_nondigit_of_some ht he with rfl
    rw [mapOpt_cons_some he, mapOpt_cons_some (pieceVal_digitrun hne hd)] at hk
    rcases hrest' : mapOpt pieceVal rest with - | krest
    · rw [hrest'] at hk
      cases hk
    · rw [hrest'] at hk
      simp only [Option.map_some', Option.some.injEq] at hk
      rw [← hk]
      exact AltKey.cons _ _ _ (ih hrest')

theorem altKey_of_key {s : Str} {k : List KeyElem} (h : natural_sort_key s = some k) :
    AltKey k :=
  altKey_of_mapOpt (splitDigits_alt s) h

/-- Comparing two produced keys never compares an int against a str. -/
theorem keyLt_isSome_of_alt {k1 k2 : List KeyElem} (h1 : AltKey k1) (h2 : AltKey k2) :
    (keyLt k1 k2).isSome = true := by
  induction h1 generalizing k2 with
  | single t1 =>
    cases h2 with
    | single t2 =>
      by_cases h : KeyElem.str t1 = KeyElem.str t2 <;> simp [keyLt, h, keyElemLt]
    | cons t2 n2 rest2 h =>
      by_cases h : KeyElem.str t1 = KeyElem.str t2 <;> simp [keyLt, h, keyElemLt]
  | cons t1 n1 rest1 h ih =>
    cases h2 with
    | single t2 =>
      by_cases hh : KeyElem.str t1 = KeyElem.str t2 <;> simp [keyLt, hh, keyElemLt]
    | cons t2 n2 rest2 hrest2 =>
      by_cases hh : KeyElem.str t1 = KeyElem.str t2
      · by_cases hn : KeyElem.num n1 = KeyElem.num n2
        · simpa [keyLt, hh, hn] using ih hrest2
        · simp [keyLt, hh, hn, keyElemLt]
      · simp [keyLt, hh, keyElemLt]

/-! ### Order properties of the key comparison -/

theorem char_eq_of_toNat_eq {a b : Char} (h : a.toNat = b.toNat) : a = b :=
  Char.ext (UInt32.ext h)

theorem strLtB_asymm : ∀ {a b : Str}, strLtB a b = true → strLtB b a = false := by
  intro a
  induction a with
  | nil =>
    intro b h
    cases b with
    | nil => cases h
    | cons y ys => rfl
  | cons x xs ih =>
    intro b h
    cases b with
    | nil => cases h
    | cons y ys =>
      simp only [strLtB] at h ⊢
      by_cases h1 : x.toNat < y.toNat
      · have h2 : ¬y.toNat < x.toNat := by omega
        simp [h1, h2]
      · by_cases h2 : y.toNat < x.toNat
        · simp [h1, h2] at h
        · simp only [h1, h2, if_false] at h ⊢
          exact ih h

theorem strLtB_conn : ∀ {a b : Str}, strLtB a b = false → strLtB b a = false → a = b := by
  intro a
  induction a with
  | nil =>
    intro b h1 h2
    cases b with
    | nil => rfl
    | cons y ys => cases h1
  | cons x xs ih =>
    intro b h1 h2
    cases b with
    | nil => cases h2
    | cons y ys =>
      simp only [strLtB] at h1 h2
      by_cases ha : x.toNat < y.toNat
      · simp [ha] at h1
      · by_cases hb : y.toNat < x.toNat
        · simp [ha, hb] at h2
        · have hxy : x = y := char_eq_of_toNat_eq (by omega)
          simp only [ha, hb, if_false] at h1 h2
          rw [hxy, ih h1 h2]

theorem strLtB_trans : ∀ {a b c : Str}, strLtB a b = true → strLtB b c = true →
    strLtB a c = true := by
  intro a
  induction a with
  | nil =>
    intro b c h1 h2
    cases b with
    | nil => cases h1
    | cons y ys =>
      cases c with
      | nil => cases h2
      | cons z zs => rfl
  | cons x xs ih =>
    intro b c h1 h2
    cases b with
    | nil => cases h1
    | cons y ys =>
      cases c with
      | nil => cases h2
      | cons z zs =>
        simp only [strLtB] at h1 h2 ⊢
        by_cases hxy : x.toNat < y.toNat
        · by_cases hyz : y.toNat < z.toNat
          · have : x.toNat < z.toNat := by omega
            simp [this]
          · by_cases hzy : z.toNat < y.toNat
            · simp [hxy, hyz, hzy] at h2
            · have : x.toNat < z.toNat := by omega
              simp [this]
        · by_cases hyx : y.toNat < x.toNat
          · simp [hxy, hyx] at h1
          · by_cases hyz : y.toNat < z.toNat
            · have : x.toNat < z.toNat := by omega
              simp [this]
            · by_cases hzy : z.toNat < y.toNat
              · simp [hyz, hzy] at h2
              · have h3 : ¬x.toNat < z.toNat := by omega
                have h4 : ¬z.toNat < x.toNat := by omega
                simp only [hxy, hyx, if_false] at h1
                simp only [hyz, hzy, if_false] at h2
                simp only [h3, h4, if_false]
                exact ih h1 h2

theorem keyElemLt_asymm {a b : KeyElem} (h : keyElemLt a b = some true) :
    keyElemLt b a = some false := by
  cases a <;> cases b <;> simp only [keyElemLt] at h ⊢
  · exact congrArg some (strLtB_asymm (Option.some_inj.mp h))
  · cases h
  · cases h
  · have := of_decide_eq_true (Option.some_inj.mp h)
    simp only [Option.some_inj, decide_eq_false_iff_not]
    omega

theorem keyElemLt_conn {a b : KeyElem} (h1 : keyElemLt a b = some false)
    (h2 : keyElemLt b a = some false) : a = b := by
  cases a <;> cases b <;> simp only [keyElemLt] at h1 h2
  · exact congrArg KeyElem.str (strLtB_conn (Option.some_inj.mp h1) (Option.some_inj.mp h2))
  · cases h1
  · cases h1
  · have ha := of_decide_eq_false (Option.some_inj.mp h1)
    have hb := of_decide_eq_false (Option.some_inj.mp h2)
    exact congrArg KeyElem.num (by omega)

theorem keyElemLt_trans {a b c : KeyElem} (h1 : keyElemLt a b = some true)
    (h2 : keyElemLt b c = some true) : keyElemLt a c = some true := by
  cases a <;> cases b <;> cases c <;> simp only [keyElemLt] at h1 h2 ⊢
  · exact congrArg some (strLtB_trans (Option.some_inj.mp h1) (Option.some_inj.mp h2))
  all_goals first
    | cases h1
    | cases h2
    | (have ha := of_decide_eq_true (Option.some_inj.mp h1)
       have hb := of_decide_eq_true (Option.some_inj.mp h2)
       simp only [Option.some_inj, decide_eq_true_eq]
       omega)

theorem keyLt_asymm : ∀ {k1 k2 : List KeyElem}, keyLt k1 k2 = some true →
    keyLt k2 k1 = some false := by
  intro k1
  induction k1 with
  | nil =>
    intro k2 h
    cases k2 with
    | nil => cases Option.some_inj.mp h
    | cons b bs => rfl
  | cons a as ih =>
    intro k2 h
    cases k2 with
    | nil => cases Option.some_inj.mp h
    | cons b bs =>
      simp only [keyLt] at h ⊢
      by_cases hab : a = b
      · subst hab
        simp only [if_pos rfl] at h ⊢
        exact ih h
      · rw [if_neg hab] at h
        rw [if_neg (Ne.symm hab)]
        exact keyElemLt_asymm h

theorem keyLt_conn : ∀ {k1 k2 : List KeyElem}, keyLt k1 k2 = some false →
    keyLt k2 k1 = some false → k1 = k2 := by
  intro k1
  induction k1 with
  | nil =>
    intro k2 h1 h2
    cases k2 with
    | nil => rfl
    | cons b bs => cases Option.some_inj.mp h1
  | cons a as ih =>
    intro k2 h1 h2
    cases k2 with
    | nil => cases Option.some_inj.mp h2
    | cons b bs =>
      simp only [keyLt] at h1 h2
      by_cases hab : a = b
      · subst hab
        simp only [if_pos rfl] at h1 h2
        rw [ih h1 h2]
      · rw [if_neg hab] at h1
        rw [if_neg (Ne.symm hab)] at h2
        exact absurd (keyElemLt_conn h1 h2) hab

theorem keyLt_trans : ∀ {k1 k2 k3 : List KeyElem}, keyLt k1 k2 = some true →
    keyLt k2 k3 = some true → keyLt k1 k3 = some true := by
  intro k1
  induction k1 with
  | nil =>
    intro k2 k3 h1 h2
    cases k2 with
    | nil => cases Option.some_inj.mp h1
    | cons b bs =>
      cases k3 with
      | nil => cases Option.some_inj.mp h2
      | cons c cs => rfl
  | cons a as ih =>
    intro k2 k3 h1 h2
    cases k2 with
    | nil => cases Option.some_inj.mp h1
    | cons b bs =>
      cases k3 with
      | nil => cases Option.some_inj.mp h2
      | cons c cs =>
        simp only [keyLt] at h1 h2 ⊢
        by_cases hab : a = b
        · subst hab
          rw [if_pos rfl] at h1
          by_cases hbc : a = c
          · subst hbc
            rw [if_pos rfl] at h2 ⊢
            exact ih h1 h2
          · rw [if_neg hbc] at h2 ⊢
            exact h2
        · rw [if_neg hab] at h1
          by_cases hbc : b = c
          · subst hbc
            rw [if_neg hab]
            exact h1
          · rw [if_neg hbc] at h2
            have hac : keyElemLt a c = some true := keyElemLt_trans h1 h2
            by_cases haeqc : a = c
            · subst haeqc
              have := keyElemLt_asymm h1
              rw [this] at h2
              cases Option.some_inj.mp h2
            · rw [if_neg haeqc]
              exact hac

/-! ### The stable sort: permutation, sortedness, uniqueness -/

theorem insertLe_perm (le : α → α → Bool) (x : α) :
    ∀ l : List α, List.Perm (insertLe le x l) (x :: l) := by
  intro l
  induction l with
  | nil => exact List.Perm.refl _
  | cons y ys ih =>
    simp only [insertLe]
    by_cases h : le x y = true
    · rw [if_pos h]
    · rw [if_neg h]
      exact (List.Perm.cons y ih).trans (List.Perm.swap x y ys)

theorem isort_perm (le : α → α → Bool) :
    ∀ l : List α, List.Perm (isort le l) l := by
  intro l
  induction l with
  | nil => exact List.Perm.refl _
  | cons x xs ih =>
    exact (insertLe_perm le x (isort le xs)).trans (List.Perm.cons x ih)

theorem insertLe_pairwise {le : α → α → Bool} {x : α} :
    ∀ {l : List α},
    (∀ b ∈ l, le x b = true ∨ le b x = true) →
    (∀ b ∈ l, ∀ c ∈ l, le x b = true → le b c = true → le x c = true) →
    List.Pairwise (fun a b => le a b = true) l →
    List.Pairwise (fun a b => le a b = true) (insertLe le x l) := by
  intro l
  induction l with
  | nil =>
    intro _ _ _
    exact List.pairwise_singleton _ _
  | cons y ys ih =>
    intro tot trans hl
    rcases List.pairwise_cons.mp hl with ⟨hy, hys⟩
    simp only [insertLe]
    by_cases h : le x y = true
    · rw [if_pos h]
      refine List.pairwise_cons.mpr ⟨?_, hl⟩
      intro b hb
      rcases List.mem_cons.mp hb with rfl | hb
      · exact h
      · exact trans y (List.mem_cons_self _ _) b (List.mem_cons_of_mem _ hb) h (hy b hb)
    · rw [if_neg h]
      have hyx : le y x = true := by
        rcases tot y (List.mem_cons_self _ _) with h' | h'
        · exact absurd h' h
        · exact h'
      refine List.pairwise_cons.mpr ⟨?_, ?_⟩
      · intro b hb
        have hb' : b ∈ x :: ys := (insertLe_perm le x ys).subset hb
        rcases List.mem_cons.mp hb' with rfl | hb'
        · exact hyx
        · exact hy b hb'
      · refine ih ?_ ?_ hys
        · intro b hb
          exact tot b (List.mem_cons_of_mem _ hb)
        · intro b hb c hc
          exact trans b (List.mem_cons_of_mem _ hb) c (List.mem_cons_of_mem _ hc)

theorem isort_pairwise {le : α → α → Bool} :
    ∀ {L : List α},
    (∀ a ∈ L, ∀ b ∈ L, le a b = true ∨ le b a = true) →
    (∀ a ∈ L, ∀ b ∈ L, ∀ c ∈ L, le a b = true → le b c = true → le a c = true) →
    List.Pairwise (fun a b => le a b = true) (isort le L) := by
  intro L
  induction L with
  | nil =>
    intro _ _
    exact List.Pairwise.nil
  | cons x xs ih =>
    intro tot trans
    have hmem : ∀ b ∈ isort le xs, b ∈ x :: xs := fun b hb =>
      List.mem_cons_of_mem _ ((isort_perm le xs).subset hb)
    refine insertLe_pairwise ?_ ?_ ?_
    · intro b hb
      exact tot x (List.mem_cons_self _ _) b (hmem b hb)
    · intro b hb c hc
      exact trans x (List.mem_cons_self _ _) b (hmem b hb) c (hmem c hc)
    · refine ih ?_ ?_
      · intro a ha b hb
        exact tot a (List.mem_cons_of_mem _ ha) b (List.mem_cons_of_mem _ hb)
      · intro a ha b hb c hc
        exact trans a (List.mem_cons_of_mem _ ha) b (List.mem_cons_of_mem _ hb) c
          (List.mem_cons_of_mem _ hc)

theorem cons_append_of_forall_eq {a : α} :
    ∀ {u v : List α}, (∀ x ∈ u, x = a) → a :: (u ++ v) = u ++ a :: v := by
  intro u
  induction u with
  | nil => intro v _; rfl
  | cons y ys ih =>
    intro v hall
    have hy : y = a := hall y (List.mem_cons_self _ _)
    subst hy
    have := @ih v (fun x hx => hall x (List.mem_cons_of_mem _ hx))
    calc y :: (y :: ys ++ v) = y :: (y :: (ys ++ v)) := rfl
      _ = y :: (ys ++ y :: v) := by rw [← this]
      _ = (y :: ys) ++ y :: v := rfl

/-- Two sorted lists that are permutations of each other are equal, provided
the order relation is antisymmetric on the elements involved. -/
theorem sorted_perm_eq {le : α → α → Bool} :
    ∀ {l₁ l₂ : List α}, List.Perm l₁ l₂ →
    (∀ a ∈ l₁, ∀ b ∈ l₁, le a b = true → le b a = true → a = b) →
    List.Pairwise (fun a b => le a b = true) l₁ →
    List.Pairwise (fun a b => le a b = true) l₂ → l₁ = l₂ := by
  intro l₁
  induction l₁ with
  | nil =>
    intro l₂ hp _ _ _
    exact hp.nil_eq
  | cons a t ih =>
    intro l₂ hp anti hs₁ hs₂
    have ha : a ∈ l₂ := hp.subset (List.mem_cons_self _ _)
    rcases List.append_of_mem ha with ⟨u, v, rfl⟩
    have hp' : List.Perm t (u ++ v) := (List.perm_cons a).mp (hp.trans List.perm_middle)
    rcases List.pairwise_cons.mp hs₁ with ⟨hat, hst⟩
    have hsub : List.Sublist (u ++ v) (u ++ a :: v) :=
      List.Sublist.append_left (List.sublist_cons_self a v) u
    have hs₂' : List.Pairwise (fun a b => le a b = true) (u ++ v) := hs₂.sublist hsub
    have anti' : ∀ x ∈ t, ∀ y ∈ t, le x y = true → le y x = true → x = y := by
      intro x hx y hy
      exact anti x (List.mem_cons_of_mem _ hx) y (List.mem_cons_of_mem _ hy)
    have ht : t = u ++ v := ih hp' anti' hst hs₂'
    subst ht
    have hueq : ∀ x ∈ u, x = a := by
      intro x hx
      have hxa : le x a = true := by
        rcases List.pairwise_append.mp hs₂ with ⟨-, -, hcross⟩
        exact hcross x hx a (List.mem_cons_self _ _)
      have hax : le a x = true := hat x (List.mem_append_left v hx)
      exact anti x (List.mem_cons_of_mem _ (List.mem_append_left v hx)) a
        (List.mem_cons_self _ _) hxa hax
    exact cons_append_of_forall_eq hueq

/-! ### `mapOpt` and `sortNatural` -/

theorem mapOpt_eq_none_iff {f : α → Option β} :
    ∀ {l : List α}, mapOpt f l = none ↔ ∃ a ∈ l, f a = none := by
  intro l
  induction l with
  | nil => simp [mapOpt]
  | cons a t ih =>
    constructor
    · intro h
      rcases ha : f a with - | b
      · exact ⟨a, List.mem_cons_self _ _, ha⟩
      · rw [mapOpt_cons_some ha] at h
        rcases ht : mapOpt f t with - | bs
        · rcases ih.mp ht with ⟨x, hx, hfx⟩
          exact ⟨x, List.mem_cons_of_mem _ hx, hfx⟩
        · rw [ht] at h
          cases h
    · rintro ⟨x, hx, hfx⟩
      rcases List.mem_cons.mp hx with rfl | hx
      · exact mapOpt_cons_none hfx
      · rcases ha : f a with - | b
        · exact mapOpt_cons_none ha
        · rw [mapOpt_cons_some ha, ih.mpr ⟨x, hx, hfx⟩]
          rfl

theorem mapOpt_eq_some_of_forall {f : α → Option β} {g : α → β} :
    ∀ {l : List α}, (∀ a ∈ l, f a = some (g a)) → mapOpt f l = some (l.map g) := by
  intro l
  induction l with
  | nil => intro _; rfl
  | cons a t ih =>
    intro h
    rw [mapOpt_cons_some (h a (List.mem_cons_self _ _)),
      ih (fun x hx => h x (List.mem_cons_of_mem _ hx))]
    rfl

theorem mapOpt_congr {f g : α → Option β} :
    ∀ {l : List α}, (∀ a ∈ l, f a = g a) → mapOpt f l = mapOpt g l := by
  intro l
  induction l with
  | nil => intro _; rfl
  | cons a t ih =>
    intro h
    have ha := h a (List.mem_cons_self _ _)
    have ht := ih (fun x hx => h x (List.mem_cons_of_mem _ hx))
    rcases hfa : f a with - | b
    · rw [mapOpt_cons_none hfa, mapOpt_cons_none (ha ▸ hfa)]
    · rw [mapOpt_cons_some hfa, mapOpt_cons_some (ha ▸ hfa), ht]

theorem bnot_eq_false {b : Bool} (h : (!b) = false) : b = true := by
  cases b
  · cases h
  · rfl

theorem bnot_eq_true {b : Bool} (h : (!b) = true) : b = false := by
  cases b
  · rfl
  · cases h

theorem keyLtB_true_iff {k1 k2 : List KeyElem} :
    keyLtB k1 k2 = true ↔ keyLt k1 k2 = some true := by
  unfold keyLtB
  rcases h : keyLt k1 k2 with - | b
  · simp
  · cases b <;> simp

theorem keyLtB_false_iff_of_alt {k1 k2 : List KeyElem} (h1 : AltKey k1) (h2 : AltKey k2) :
    keyLtB k1 k2 = false ↔ keyLt k1 k2 = some false := by
  have hs := keyLt_isSome_of_alt h1 h2
  unfold keyLtB
  rcases h : keyLt k1 k2 with - | b
  · rw [h] at hs
    cases hs
  · cases b <;> simp

/-- A successful sort returns a permutation of its input. -/
theorem sortNatural_some_perm {l r : List Str} (h : sortNatural l = some r) :
    List.Perm r l := by
  unfold sortNatural at h
  rcases hm : mapOpt keyPair l with - | prs
  · rw [hm] at h
    cases h
  · rw [hm] at h
    simp only [Option.map_some', Option.some.injEq] at h
    have hsome : ∀ a ∈ l, (natural_sort_key a).isSome = true := by
      intro a ha
      rcases hk : natural_sort_key a with - | k
      · exfalso
        have : mapOpt keyPair l = none := mapOpt_eq_none_iff.mpr
          ⟨a, ha, by simp [keyPair, hk]⟩
        rw [hm] at this
        cases this
      · rfl
    have hform : ∀ a ∈ l, keyPair a = some (a, (natural_sort_key a).getD []) := by
      intro a ha
      rcases hk : natural_sort_key a with - | k
      · have := hsome a ha
        rw [hk] at this
        cases this
      · simp [keyPair, hk]
    have hprs : prs = l.map (fun a => (a, (natural_sort_key a).getD [])) := by
      have := mapOpt_eq_some_of_forall hform
      rw [hm] at this
      exact Option.some_inj.mp this
    rw [← h, hprs]
    have hperm := (isort_perm pairLe (l.map (fun a => (a, (natural_sort_key a).getD [])))).map Prod.fst
    refine hperm.trans ?_
    rw [List.map_map]
    exact List.Perm.refl _ |>.trans (by rw [show (Prod.fst ∘ fun a => (a, (natural_sort_key a).getD [])) = id from rfl, List.map_id])

/-- Sorting two enumerations of the same names gives the same list, provided
distinct names have distinct keys; with equal keys the stable sort preserves
the enumeration order instead (see the tie counterexample). -/
theorem sortNatural_eq_of_perm {l₁ l₂ : List Str} (hp : List.Perm l₁ l₂)
    (hinj : ∀ a ∈ l₁, ∀ b ∈ l₁, natural_sort_key a = natural_sort_key b → a = b) :
    sortNatural l₁ = sortNatural l₂ := by
  rcases hm : mapOpt keyPair l₁ with - | prs₁
  · rcases mapOpt_eq_none_iff.mp hm with ⟨a, ha, hfa⟩
    have h₂ : mapOpt keyPair l₂ = none := mapOpt_eq_none_iff.mpr ⟨a, hp.subset ha, hfa⟩
    unfold sortNatural
    rw [hm, h₂]
  · have hsome : ∀ a ∈ l₁, (natural_sort_key a).isSome = true := by
      intro a ha
      rcases hk : natural_sort_key a with - | k
      · exfalso
        have : mapOpt keyPair l₁ = none := mapOpt_eq_none_iff.mpr
          ⟨a, ha, by simp [keyPair, hk]⟩
        rw [hm] at this
        cases this
      · rfl
    have hform : ∀ a ∈ l₁, keyPair a = some (a, (natural_sort_key a).getD []) := by
      intro a ha
      rcases hk : natural_sort_key a with - | k
      · have := hsome a ha
        rw [hk] at this
        cases this
      · simp [keyPair, hk]
    have hform₂ : ∀ a ∈ l₂, keyPair a = some (a, (natural_sort_key a).getD []) :=
      fun a ha => hform a (hp.symm.subset ha)
    have hm₁ : mapOpt keyPair l₁ = some (l₁.map (fun a => (a, (natural_sort_key a).getD []))) :=
      mapOpt_eq_some_of_forall hform
    have hm₂ : mapOpt keyPair l₂ = some (l₂.map (fun a => (a, (natural_sort_key a).getD []))) :=
      mapOpt_eq_some_of_forall hform₂
    have haltmem : ∀ p ∈ l₁.map (fun a => (a, (natural_sort_key a).getD [])),
        p.1 ∈ l₁ ∧ natural_sort_key p.1 = some p.2 ∧ AltKey p.2 := by
      intro p hpmem
      rcases List.mem_map.mp hpmem with ⟨a, ha, rfl⟩
      have := hsome a ha
      rcases hk : natural_sort_key a with - | k
      · rw [hk] at this
        cases this
      · exact ⟨ha, rfl, altKey_of_key hk⟩
    have tot : ∀ p ∈ l₁.map (fun a => (a, (natural_sort_key a).getD [])),
        ∀ q ∈ l₁.map (fun a => (a, (natural_sort_key a).getD [])),
        pairLe p q = true ∨ pairLe q p = true := by
      intro p hp' q hq'
      by_contra hcon
      push_neg at hcon
      rcases hcon with ⟨h1, h2⟩
      simp only [pairLe, Bool.not_eq_true] at h1 h2
      have ht1 := keyLtB_true_iff.mp (bnot_eq_false h1)
      have ht2 := keyLtB_true_iff.mp (bnot_eq_false h2)
      have := keyLt_asymm ht1
      rw [this] at ht2
      cases Option.some_inj.mp ht2
    have trans : ∀ p ∈ l₁.map (fun a => (a, (natural_sort_key a).getD [])),
        ∀ q ∈ l₁.map (fun a => (a, (natural_sort_key a).getD [])),
        ∀ r ∈ l₁.map (fun a => (a, (natural_sort_key a).getD [])),
        pairLe p q = true → pairLe q r = true → pairLe p r = true := by
      intro p hp' q hq' r hr' h1 h2
      rcases haltmem p hp' with ⟨-, -, hap⟩
      rcases haltmem q hq' with ⟨-, -, haq⟩
      rcases haltmem r hr' with ⟨-, -, har⟩
      simp only [pairLe] at h1 h2 ⊢
      have hf1 := (keyLtB_false_iff_of_alt haq hap).mp (bnot_eq_true h1)
      have hf2 := (keyLtB_false_iff_of_alt har haq).mp (bnot_eq_true h2)
      rw [Bool.not_eq_true']
      refine (keyLtB_false_iff_of_alt har hap).mpr ?_
      have hs := keyLt_isSome_of_alt har hap
      rcases hx : keyLt r.2 p.2 with - | b
      · rw [hx] at hs
        cases hs
      · cases b
        · rfl
        · exfalso
          have hspq := keyLt_isSome_of_alt hap haq
          rcases hy : keyLt p.2 q.2 with - | c
          · rw [hy] at hspq
            cases hspq
          · cases c
            · have : p.2 = q.2 := keyLt_conn hy hf1
              rw [this] at hx
              rw [hx] at hf2
              cases Option.some_inj.mp hf2
            · have := keyLt_trans hx hy
              rw [this] at hf2
              cases Option.some_inj.mp hf2
    have anti : ∀ p ∈ l₁.map (fun a => (a, (natural_sort_key a).getD [])),
        ∀ q ∈ l₁.map (fun a => (a, (natural_sort_key a).getD [])),
        pairLe p q = true → pairLe q p = true → p = q := by
      intro p hp' q hq' h1 h2
      rcases haltmem p hp' with ⟨hpl, hpk, hap⟩
      rcases haltmem q hq' with ⟨hql, hqk, haq⟩
      simp only [pairLe] at h1 h2
      have hf1 := (keyLtB_false_iff_of_alt haq hap).mp (bnot_eq_true h1)
      have hf2 := (keyLtB_false_iff_of_alt hap haq).mp (bnot_eq_true h2)
      have hkeq : q.2 = p.2 := keyLt_conn hf1 hf2
      have heq : p.1 = q.1 := hinj p.1 hpl q.1 hql (by rw [hpk, hqk, hkeq])
      exact Prod.ext heq hkeq.symm
    have hpm : List.Perm (l₁.map (fun a => (a, (natural_sort_key a).getD [])))
        (l₂.map (fun a => (a, (natural_sort_key a).getD []))) := hp.map _
    have hsorted₁ := @isort_pairwise _ pairLe (l₁.map (fun a => (a, (natural_sort_key a).getD []))) tot trans
    have tot₂ : ∀ p ∈ l₂.map (fun a => (a, (natural_sort_key a).getD [])),
        ∀ q ∈ l₂.map (fun a => (a, (natural_sort_key a).getD [])),
        pairLe p q = true ∨ pairLe q p = true := by
      intro p hp' q hq'
      exact tot p (hpm.symm.subset hp') q (hpm.symm.subset hq')
    have trans₂ : ∀ p ∈ l₂.map (fun a => (a, (natural_sort_key a).getD [])),
        ∀ q ∈ l₂.map (fun a => (a, (natural_sort_key a).getD [])),
        ∀ r ∈ l₂.map (fun a => (a, (natural_sort_key a).getD [])),
        pairLe p q = true → pairLe q r = true → pairLe p r = true := by
      intro p hp' q hq' r hr'
      exact trans p (hpm.symm.subset hp') q (hpm.symm.subset hq') r (hpm.symm.subset hr')
    have hsorted₂ := @isort_pairwise _ pairLe (l₂.map (fun a => (a, (natural_sort_key a).getD []))) tot₂ trans₂
    have hperm : List.Perm (isort pairLe (l₁.map (fun a => (a, (natural_sort_key a).getD []))))
        (isort pairLe (l₂.map (fun a => (a, (natural_sort_key a).getD [])))) :=
      ((isort_perm _ _).trans hpm).trans (isort_perm _ _).symm
    have anti' : ∀ p ∈ isort pairLe (l₁.map (fun a => (a, (natural_sort_key a).getD []))),
        ∀ q ∈ isort pairLe (l₁.map (fun a => (a, (natural_sort_key a).getD []))),
        pairLe p q = true → pairLe q p = true → p = q := by
      intro p hp' q hq'
      exact anti p ((isort_perm _ _).subset hp') q ((isort_perm _ _).subset hq')
    have heq := sorted_perm_eq hperm anti' hsorted₁ hsorted₂
    unfold sortNatural
    rw [hm₁, hm₂]
    simp only [Option.map_some', Option.some.injEq]
    rw [heq]

/-! ### Discovery under permuted enumerations -/

theorem matchedNames_perm {l₁ l₂ : List Str} (h : List.Perm l₁ l₂) :
    List.Perm (matchedNames l₁) (matchedNames l₂) := by
  unfold matchedNames
  generalize supported_formats = exts
  induction exts with
  | nil => exact List.Perm.refl _
  | cons e es ih =>
    simp only [List.map_cons, List.flatten_cons]
    exact ((h.filter (globMatch e)).append (h.filter (globMatch (upperExt e)))).append ih

theorem applyAllowList_subset {subs : List Str} {ids : Option Str} :
    ∀ a ∈ applyAllowList subs ids, a ∈ subs := by
  intro a ha
  rcases ids with - | s
  · exact ha
  · have he : applyAllowList subs (some s) =
        if s = [] then subs
        else subs.filter (fun f => decide (f ∈ (splitComma s).map pyStrip)) := rfl
    rw [he] at ha
    by_cases hs : s = []
    · rw [if_pos hs] at ha
      exact ha
    · rw [if_neg hs] at ha
      exact List.mem_of_mem_filter ha

theorem get_all_eq_of_perm (fs₁ fs₂ : FS) (ids : Option Str)
    (hdir : fs₁.dir = fs₂.dir)
    (hisdir : ∀ f, fs₁.isDir f = fs₂.isDir f)
    (hlist : List.Perm fs₁.listing fs₂.listing)
    (hfiles : ∀ f, List.Perm (fs₁.filesOf f) (fs₂.filesOf f))
    (hsubinj : ∀ a ∈ fs₁.listing.filter fs₁.isDir, ∀ b ∈ fs₁.listing.filter fs₁.isDir,
      natural_sort_key a = natural_sort_key b → a = b)
    (hfileinj : ∀ folder ∈ fs₁.listing,
      ∀ a ∈ (matchedNames (fs₁.filesOf folder)).map (joinPath (joinPath fs₁.dir folder)),
      ∀ b ∈ (matchedNames (fs₁.filesOf folder)).map (joinPath (joinPath fs₁.dir folder)),
      natural_sort_key a = natural_sort_key b → a = b) :
    get_all_image_files_sorted fs₁ ids = get_all_image_files_sorted fs₂ ids := by
  have hfilter : List.Perm (fs₁.listing.filter fs₁.isDir) (fs₂.listing.filter fs₂.isDir) := by
    have h1 : fs₂.listing.filter fs₂.isDir = fs₂.listing.filter fs₁.isDir :=
      List.filter_congr (fun a _ => (hisdir a).symm)
    rw [h1]
    exact hlist.filter fs₁.isDir
  have hsort : sortNatural (fs₁.listing.filter fs₁.isDir)
      = sortNatural (fs₂.listing.filter fs₂.isDir) :=
    sortNatural_eq_of_perm hfilter hsubinj
  have hbody₁ : get_all_image_files_sorted fs₁ ids =
      (sortNatural (fs₁.listing.filter fs₁.isDir)).bind (fun sorted =>
        (mapOpt (fun f => folderImages fs₁.dir f (fs₁.filesOf f))
          (applyAllowList sorted ids)).bind (fun per => some per.flatten)) := rfl
  have hbody₂ : get_all_image_files_sorted fs₂ ids =
      (sortNatural (fs₂.listing.filter fs₂.isDir)).bind (fun sorted =>
        (mapOpt (fun f => folderImages fs₂.dir f (fs₂.filesOf f))
          (applyAllowList sorted ids)).bind (fun per => some per.flatten)) := rfl
  rw [hbody₁, hbody₂, ← hsort]
  rcases hS : sortNatural (fs₁.listing.filter fs₁.isDir) with - | sorted
  · rfl
  · simp only [Option.some_bind]
    have hmem : ∀ f ∈ applyAllowList sorted ids, f ∈ fs₁.listing := by
      intro f hf
      have h1 : f ∈ sorted := applyAllowList_subset f hf
      have h2 : f ∈ fs₁.listing.filter fs₁.isDir := (sortNatural_some_perm hS).subset h1
      exact List.mem_of_mem_filter h2
    have hcongr : mapOpt (fun f => folderImages fs₁.dir f (fs₁.filesOf f))
        (applyAllowList sorted ids)
        = mapOpt (fun f => folderImages fs₂.dir f (fs₂.filesOf f))
        (applyAllowList sorted ids) := by
      refine mapOpt_congr ?_
      intro f hf
      unfold folderImages
      rw [← hdir]
      exact sortNatural_eq_of_perm ((matchedNames_perm (hfiles f)).map _)
        (hfileinj f (hmem f hf))
    rw [hcongr]

/-! ### The aggregation loop -/

theorem loadLoop_fst (dec : Str → Option Image) :
    ∀ files : List Str,
    (loadLoop dec files).1 = files.filterMap (fun f => (dec f).map normalizeRGB) := by
  intro files
  induction files with
  | nil => rfl
  | cons p ps ih =>
    simp only [loadLoop, List.filterMap_cons]
    rcases h : dec p with - | img
    · simpa [h] using ih
    · simpa [h] using ih

theorem loadLoop_snd (dec : Str → Option Image) :
    ∀ files : List Str,
    (loadLoop dec files).2 = files.filter (fun f => (dec f).isNone) := by
  intro files
  induction files with
  | nil => rfl
  | cons p ps ih =>
    simp only [loadLoop, List.filter_cons]
    rcases h : dec p with - | img
    · simpa [h] using ih
    · simpa [h] using ih

theorem length_filterMap_opt (dec : Str → Option Image) :
    ∀ files : List Str,
    (files.filterMap (fun f => (dec f).map normalizeRGB)).length
      = files.countP (fun f => (dec f).isSome) := by
  intro files
  induction files with
  | nil => rfl
  | cons p ps ih =>
    simp only [List.filterMap_cons, List.countP_cons]
    rcases h : dec p with - | img
    · simpa [h] using ih
    · simpa [h] using ih

theorem countP_some_none (dec : Str → Option Image) :
    ∀ files : List Str,
    files.countP (fun f => (dec f).isSome) + files.countP (fun f => (dec f).isNone)
      = files.length := by
  intro files
  induction files with
  | nil => rfl
  | cons p ps ih =>
    rcases h : dec p with - | img
    · simp [List.countP_cons, h]
      omega
    · simp [List.countP_cons, h]
      omega

theorem loadLoop_fst_nil_iff (dec : Str → Option Image) (files : List Str) :
    (loadLoop dec files).1 = [] ↔ ∀ f ∈ files, dec f = none := by
  rw [loadLoop_fst]
  rw [List.filterMap_eq_nil_iff]
  constructor
  · intro h f hf
    have := h f hf
    rcases hd : dec f with - | img
    · rfl
    · rw [hd] at this
      cases this
  · intro h f hf
    rw [h f hf]
    rfl

/-! ### Claim theorems -/

/-- C1: for every run with at least one decodable entry (and the save not
failing), each entry that fails to decode is recorded in the skip list and the
run continues; the conversion succeeds and the document's pages are exactly
the normalized decodes of the surviving entries in their discovery order, so
the page count equals the number of successfully decoded entries, which is the
total entry count minus the number of skipped entries. -/
theorem decode_skip_page_count (dec : Str → Option Image) (files : List Str)
    (hdec : ∃ f ∈ files, (dec f).isSome = true) :
    ∃ doc : PdfDoc,
      convert_all_images_to_single_pdf dec files true = (true, some doc) ∧
      doc.pages = files.filterMap (fun f => (dec f).map normalizeRGB) ∧
      doc.pages.length = files.countP (fun f => (dec f).isSome) ∧
      (loadLoop dec files).2 = files.filter (fun f => (dec f).isNone) ∧
      (loadLoop dec files).2.length = files.countP (fun f => (dec f).isNone) ∧
      doc.pages.length + (loadLoop dec files).2.length = files.length := by
  rcases hdec with ⟨f0, hf0, hf0s⟩
  have hne : files ≠ [] := by
    rintro rfl
    cases hf0
  have hl1 : (loadLoop dec files).1 ≠ [] := by
    rw [Ne, loadLoop_fst_nil_iff]
    intro hall
    rw [hall f0 hf0] at hf0s
    cases hf0s
  have hconv : convert_all_images_to_single_pdf dec files true =
      if files = [] then (false, none)
      else if (loadLoop dec files).1 = [] then (false, none)
      else (true, some ⟨(loadLoop dec files).1⟩) := rfl
  refine ⟨⟨(loadLoop dec files).1⟩, ?_, ?_, ?_, ?_, ?_, ?_⟩
  · rw [hconv, if_neg hne, if_neg hl1]
  · exact loadLoop_fst dec files
  · rw [loadLoop_fst dec files]
    exact length_filterMap_opt dec files
  · exact loadLoop_snd dec files
  · rw [loadLoop_snd dec files]
    exact (List.countP_eq_length_filter _ _).symm
  · rw [loadLoop_fst dec files, loadLoop_snd dec files, length_filterMap_opt dec files,
      ← List.countP_eq_length_filter]
    exact countP_some_none dec files

/-- Witness for `decode_skip_page_count`: three concrete entries of which the
middle one fails to decode — two pages survive, one error is recorded. -/
theorem decode_skip_page_count_witness :
    ∃ doc : PdfDoc,
      convert_all_images_to_single_pdf dec0 files0 true = (true, some doc) ∧
      doc.pages = files0.filterMap (fun f => (dec0 f).map normalizeRGB) ∧
      doc.pages.length = files0.countP (fun f => (dec0 f).isSome) ∧
      (loadLoop dec0 files0).2 = files0.filter (fun f => (dec0 f).isNone) ∧
      (loadLoop dec0 files0).2.length = files0.countP (fun f => (dec0 f).isNone) ∧
      doc.pages.length + (loadLoop dec0 files0).2.length = files0.length :=
  decode_skip_page_count dec0 files0 ⟨str "d/f/1.jpg", by decide, by decide⟩

/-- C9: if the root path does not exist, the run fails with `RootNotFound`
before any discovery or aggregation work — the result is the same for every
listing, decoder and save outcome — and no artifact is produced. -/
theorem root_not_found_early (fs : FS) (ids : Option Str) (dec : Str → Option Image)
    (saveOk : Bool) (h : fs.rootExists = false) :
    mainRun fs ids dec saveOk = some (.error .rootNotFound, none) := by
  unfold mainRun
  rw [h]
  rfl

/-- Witness for `root_not_found_early` on a concrete absent root. -/
theorem root_not_found_early_witness :
    mainRun fsNoRoot none dec0 true = some (.error .rootNotFound, none) :=
  root_not_found_early fsNoRoot none dec0 true rfl

/-- C4: with the root present, discovery succeeding, and writing not the
failing step, the run ends in failure — with no artifact and in particular no
zero-page document — exactly when the aggregate is empty: `NoImagesFound` iff
discovery returned no entries (also when kept folders exist but hold no
matching image), and `NoPagesDecoded` iff there were entries but every one of
them failed to decode. -/
theorem empty_aggregate_failure (fs : FS) (ids : Option Str) (dec : Str → Option Image)
    (files : List Str) (hroot : fs.rootExists = true)
    (hfiles : get_all_image_files_sorted fs ids = some files) :
    (mainRun fs ids dec true = some (.error .noImagesFound, none) ↔ files = []) ∧
    (mainRun fs ids dec true = some (.error .noPagesDecoded, none) ↔
      files ≠ [] ∧ ∀ f ∈ files, dec f = none) ∧
    ((∃ e w, mainRun fs ids dec true = some (.error e, w)) ↔
      (files = [] ∨ ∀ f ∈ files, dec f = none)) ∧
    (∀ e w, mainRun fs ids dec true = some (.error e, w) → w = none) ∧
    (∀ doc w, mainRun fs ids dec true = some (.ok doc, w) → doc.pages ≠ []) := by
  have hmain : mainRun fs ids dec true =
      if files = [] then some (.error .noImagesFound, none)
      else if (loadLoop dec files).1 = [] then some (.error .noPagesDecoded, none)
      else some (.ok ⟨(loadLoop dec files).1⟩, some ⟨(loadLoop dec files).1⟩) := by
    unfold mainRun
    rw [hroot, hfiles]
    simp
  by_cases hf : files = []
  · rw [hmain, if_pos hf]
    refine ⟨⟨fun _ => hf, fun _ => rfl⟩,
      ⟨fun h => by simp at h, fun h => absurd hf h.1⟩,
      ⟨fun _ => Or.inl hf, fun _ => ⟨.noImagesFound, none, rfl⟩⟩, ?_, ?_⟩
    · intro e w h
      simp only [Option.some.injEq, Prod.mk.injEq] at h
      exact h.2.symm
    · intro doc w h
      simp at h
  · by_cases hl : (loadLoop dec files).1 = []
    · have hall : ∀ f ∈ files, dec f = none := (loadLoop_fst_nil_iff dec files).mp hl
      rw [hmain, if_neg hf, if_pos hl]
      refine ⟨⟨fun h => by simp at h, fun h => absurd h hf⟩,
        ⟨fun _ => ⟨hf, hall⟩, fun _ => rfl⟩,
        ⟨fun _ => Or.inr hall, fun _ => ⟨.noPagesDecoded, none, rfl⟩⟩, ?_, ?_⟩
      · intro e w h
        simp only [Option.some.injEq, Prod.mk.injEq] at h
        exact h.2.symm
      · intro doc w h
        simp at h
    · have hnall : ¬∀ f ∈ files, dec f = none := fun hall =>
        hl ((loadLoop_fst_nil_iff dec files).mpr hall)
      rw [hmain, if_neg hf, if_neg hl]
      refine ⟨⟨fun h => by simp at h, fun h => absurd h hf⟩,
        ⟨fun h => by simp at h, fun h => absurd h.2 hnall⟩,
        ⟨fun h => by
          rcases h with ⟨e, w, h⟩
          simp at h,
         fun h => by
          rcases h with h | h
          · exact absurd h hf
          · exact absurd h hnall⟩, ?_, ?_⟩
      · intro e w h
        simp at h
      · intro doc w h
        simp only [Option.some.injEq, Prod.mk.injEq, Except.ok.injEq] at h
        rw [← h.1]
        exact hl

/-- Witness for `empty_aggregate_failure`: a root whose single kept folder
holds no matching image — discovery yields the empty sequence and the run
fails with `NoImagesFound` and no artifact. -/
theorem empty_aggregate_failure_witness :
    (mainRun fsEmptyImgs none dec0 true = some (.error .noImagesFound, none) ↔ ([] : List Str) = []) ∧
    (mainRun fsEmptyImgs none dec0 true = some (.error .noPagesDecoded, none) ↔
      ([] : List Str) ≠ [] ∧ ∀ f ∈ ([] : List Str), dec0 f = none) ∧
    ((∃ e w, mainRun fsEmptyImgs none dec0 true = some (.error e, w)) ↔
      (([] : List Str) = [] ∨ ∀ f ∈ ([] : List Str), dec0 f = none)) ∧
    (∀ e w, mainRun fsEmptyImgs none dec0 true = some (.error e, w) → w = none) ∧
    (∀ doc w, mainRun fsEmptyImgs none dec0 true = some (.ok doc, w) → doc.pages ≠ []) :=
  empty_aggregate_failure fsEmptyImgs none dec0 [] rfl (by decide)

/-- C7: every decoded image is normalized to the three-channel RGB model
before being appended: normalization always yields an RGB page; for an RGBA
input the alpha channel is dropped with the color channels passed through
verbatim, so pixel values are unaffected wherever alpha was fully opaque (255);
the conversion is a pure function of the decoded image (deterministic); and
every page reaching the document is in RGB mode. -/
theorem rgb_normalization :
    (∀ img : Image, (normalizeRGB img).mode = PMode.RGB) ∧
    (∀ img : Image, img.mode = PMode.RGBA →
      (normalizeRGB img).pix = img.pix.map (fun p => ⟨p.r, p.g, p.b, 255⟩) ∧
      ∀ p ∈ img.pix, p.a = 255 → (⟨p.r, p.g, p.b, 255⟩ : Pixel) = p) ∧
    (∀ img₁ img₂ : Image, img₁ = img₂ → normalizeRGB img₁ = normalizeRGB img₂) ∧
    (∀ (dec : Str → Option Image) (files : List Str),
      ∀ page ∈ (loadLoop dec files).1, page.mode = PMode.RGB) := by
  have hmode : ∀ img : Image, (normalizeRGB img).mode = PMode.RGB := by
    intro img
    unfold normalizeRGB convertRGB
    rcases hm : img.mode with - | - | - <;> simp [hm]
  refine ⟨hmode, ?_, fun img₁ img₂ h => congrArg normalizeRGB h, ?_⟩
  · intro img hm
    constructor
    · simp [normalizeRGB, convertRGB, hm]
    · intro p hp ha
      rcases p with ⟨r, g, b, a⟩
      change a = 255 at ha
      subst ha
      rfl
  · intro dec files page hpage
    rw [loadLoop_fst] at hpage
    rcases List.mem_filterMap.mp hpage with ⟨f, hf, hdec⟩
    rcases hd : dec f with - | img
    · rw [hd] at hdec
      cases hdec
    · rw [hd] at hdec
      have : normalizeRGB img = page := Option.some_inj.mp hdec
      rw [← this]
      exact hmode img

/-- Witness for `rgb_normalization` on a concrete RGBA image with one opaque
and one transparent pixel. -/
theorem rgb_normalization_witness :
    (normalizeRGB imgRGBA).mode = PMode.RGB ∧
    (normalizeRGB imgRGBA).pix = imgRGBA.pix.map (fun p => ⟨p.r, p.g, p.b, 255⟩) ∧
    (⟨(10 : Nat), 20, 30, 255⟩ : Pixel) = ⟨10, 20, 30, 255⟩ :=
  ⟨rgb_normalization.1 imgRGBA,
   (rgb_normalization.2.1 imgRGBA rfl).1,
   (rgb_normalization.2.1 imgRGBA rfl).2 ⟨10, 20, 30, 255⟩ (by decide) rfl⟩

/-- C5 counterexample: the direct save, failing after one byte, leaves a
partial file visible at the destination where previously there was none — the
filesystem at the destination is changed by a failed write, refuting the
claimed temporary-file/rename (atomic publish) behaviour. -/
theorem direct_save_partial_visible :
    (saveDirect disk0 (str "out.pdf") [1, 2, 3] (some 1)).2 = false ∧
    (saveDirect disk0 (str "out.pdf") [1, 2, 3] (some 1)).1 (str "out.pdf") = some [1] ∧
    disk0 (str "out.pdf") = none ∧
    (saveDirect disk0 (str "out.pdf") [1, 2, 3] (some 1)).1 (str "out.pdf")
      ≠ disk0 (str "out.pdf") := by
  refine ⟨rfl, by decide, rfl, by decide⟩

/-- C5 amended: the write is performed directly at the destination path (no
temporary file, no rename): on success the destination holds the full
document; on failure the run reports failure, but the destination is left
holding exactly the prefix already written; paths other than the destination
are unaffected either way. -/
theorem direct_save_behaviour (disk : Str → Option (List Nat)) (path : Str)
    (content : List Nat) (k : Nat) :
    (saveDirect disk path content none).2 = true ∧
    (saveDirect disk path content none).1 path = some content ∧
    (saveDirect disk path content (some k)).2 = false ∧
    (saveDirect disk path content (some k)).1 path = some (content.take k) ∧
    (∀ q, q ≠ path → (saveDirect disk path content (some k)).1 q = disk q ∧
      (saveDirect disk path content none).1 q = disk q) := by
  refine ⟨rfl, by simp [saveDirect], rfl, by simp [saveDirect], ?_⟩
  intro q hq
  constructor <;> simp [saveDirect, hq]

/-- Witness for `direct_save_behaviour` at a concrete disk, path, content and
failure point. -/
theorem direct_save_behaviour_witness :
    (saveDirect disk0 (str "out.pdf") [1, 2, 3] (some 2)).1 (str "other") = disk0 (str "other") ∧
    (saveDirect disk0 (str "out.pdf") [1, 2, 3] (some 2)).1 (str "out.pdf") = some [1, 2] :=
  ⟨((direct_save_behaviour disk0 (str "out.pdf") [1, 2, 3] 2).2.2.2.2 (str "other")
      (by decide)).1,
   (direct_save_behaviour disk0 (str "out.pdf") [1, 2, 3] 2).2.2.2.1⟩

/-- C3: a supplied (truthy) allow-list acts as an exact, case-sensitive
intersection on the already-sorted folder list: the kept folders are precisely
those whose name equals some (comma-split, stripped) allow-list entry, kept in
ordering-key order (a sublist of the sorted input, not allow-list order);
entries naming no existing folder are silently ignored (the filter is total —
no error).  Concretely, folders a,b,c with allow-list "b,d" keep exactly b,
and the match is case-sensitive (folder B with allow-list "b" keeps nothing). -/
theorem allowlist_intersection :
    (∀ (subs : List Str) (ids : Str), ids ≠ [] →
      applyAllowList subs (some ids)
        = subs.filter (fun f => decide (f ∈ (splitComma ids).map pyStrip)) ∧
      List.Sublist (applyAllowList subs (some ids)) subs ∧
      (∀ f, f ∈ applyAllowList subs (some ids) ↔
        f ∈ subs ∧ f ∈ (splitComma ids).map pyStrip)) ∧
    applyAllowList [str "a", str "b", str "c"] (some (str "b,d")) = [str "b"] ∧
    applyAllowList [str "B"] (some (str "b")) = [] := by
  refine ⟨?_, by decide, by decide⟩
  intro subs ids hne
  have he : applyAllowList subs (some ids)
      = subs.filter (fun f => decide (f ∈ (splitComma ids).map pyStrip)) := by
    have h0 : applyAllowList subs (some ids)
        = if ids = [] then subs
          else subs.filter (fun f => decide (f ∈ (splitComma ids).map pyStrip)) := rfl
    rw [h0, if_neg hne]
  refine ⟨he, ?_, ?_⟩
  · rw [he]
    exact List.filter_sublist subs
  · intro f
    rw [he, List.mem_filter]
    simp

/-- Witness for `allowlist_intersection`: folder b with allow-list "b,d". -/
theorem allowlist_intersection_witness :
    str "b" ∈ applyAllowList [str "a", str "b", str "c"] (some (str "b,d")) ↔
      str "b" ∈ [str "a", str "b", str "c"] ∧
      str "b" ∈ (splitComma (str "b,d")).map pyStrip :=
  (allowlist_intersection.1 [str "a", str "b", str "c"] (str "b,d") (by decide)).2.2 (str "b")

/-- C2: natural sort: folders f1, f2, f10 are kept in the numeric-aware order
f1, f2, f10 from every enumeration order, not in the lexicographic order
f1, f10, f2 (string comparison would put "f10" before "f2", as the last
conjunct shows); file paths within a folder are sorted by the same key; digit
runs become ints compared numerically (2 < 10) and non-digit text is
lowercased, so letters compare case-insensitively ("a" before "B"). -/
theorem natural_order_folders_files :
    sortNatural [str "f1", str "f2", str "f10"] = some [str "f1", str "f2", str "f10"] ∧
    sortNatural [str "f1", str "f10", str "f2"] = some [str "f1", str "f2", str "f10"] ∧
    sortNatural [str "f2", str "f1", str "f10"] = some [str "f1", str "f2", str "f10"] ∧
    sortNatural [str "f2", str "f10", str "f1"] = some [str "f1", str "f2", str "f10"] ∧
    sortNatural [str "f10", str "f1", str "f2"] = some [str "f1", str "f2", str "f10"] ∧
    sortNatural [str "f10", str "f2", str "f1"] = some [str "f1", str "f2", str "f10"] ∧
    [str "f1", str "f2", str "f10"] ≠ [str "f1", str "f10", str "f2"] ∧
    folderImages (str "d") (str "f") [str "10.jpg", str "2.jpg"]
      = some [str "d/f/2.jpg", str "d/f/10.jpg"] ∧
    sortNatural [str "B", str "a"] = some [str "a", str "B"] ∧
    natural_sort_key (str "f10")
      = some [KeyElem.str (str "f"), KeyElem.num 10, KeyElem.str []] ∧
    natural_sort_key (str "f2")
      = some [KeyElem.str (str "f"), KeyElem.num 2, KeyElem.str []] ∧
    keyLt [KeyElem.str (str "f"), KeyElem.num 2, KeyElem.str []]
      [KeyElem.str (str "f"), KeyElem.num 10, KeyElem.str []] = some true ∧
    strLtB (str "f10") (str "f2") = true := by decide

/-- C6 counterexample: "a.Jpg" has (case-insensitively) the extension jpg, and
".b.jpg" ends in ".jpg", yet the glob loop — which matches only the
all-lowercase and all-uppercase patterns, case-sensitively, and never matches
hidden (dot-initial) names — excludes both, refuting the case-insensitive
extension characterization of the kept set. -/
theorem glob_casesensitive_counterexample :
    ciExtMatch (str "a.Jpg") = true ∧
    matchedNames [str "a.Jpg"] = [] ∧
    ciExtMatch (str ".b.jpg") = true ∧
    matchedNames [str ".b.jpg"] = [] := by decide

/-- C6 amended: a file of a kept folder appears in that folder's image
sequence iff its name does not start with a dot and ends, case-sensitively,
with a dot followed by the all-lowercase or the all-uppercase form of one of
jpg/jpeg/png/bmp/tiff/tif/webp; any other file is excluded without error
(the filter is total and the excluded file plays no further role). -/
theorem glob_extension_filter (entries : List Str) (name : Str) :
    (name ∈ matchedNames entries ↔ name ∈ entries ∧
      (supported_formats.any
        (fun e => globMatch e name || globMatch (upperExt e) name)) = true) ∧
    (∀ dir folder out, folderImages dir folder entries = some out →
      (joinPath (joinPath dir folder) name ∈ out ↔ name ∈ matchedNames entries)) := by
  constructor
  · unfold matchedNames
    rw [List.mem_flatten]
    simp only [List.mem_map, List.any_eq_true]
    constructor
    · rintro ⟨l, ⟨e, he, rfl⟩, hmem⟩
      rcases List.mem_append.mp hmem with h | h
      · rcases List.mem_filter.mp h with ⟨hn, hg⟩
        exact ⟨hn, e, he, by rw [hg]; rfl⟩
      · rcases List.mem_filter.mp h with ⟨hn, hg⟩
        exact ⟨hn, e, he, by rw [hg]; simp⟩
    · rintro ⟨hn, e, he, hor⟩
      refine ⟨entries.filter (globMatch e) ++ entries.filter (globMatch (upperExt e)),
        ⟨e, he, rfl⟩, ?_⟩
      rcases Bool.or_eq_true_iff.mp hor with h | h
      · exact List.mem_append_left _ (List.mem_filter.mpr ⟨hn, h⟩)
      · exact List.mem_append_right _ (List.mem_filter.mpr ⟨hn, h⟩)
  · intro dir folder out hout
    have hperm := sortNatural_some_perm hout
    have hinj : Function.Injective (joinPath (joinPath dir folder)) := by
      intro a b hab
      unfold joinPath at hab
      have := List.append_cancel_left hab
      exact List.cons_injective this
    constructor
    · intro hmem
      have h1 : joinPath (joinPath dir folder) name
          ∈ (matchedNames entries).map (joinPath (joinPath dir folder)) :=
        hperm.subset hmem
      exact (List.mem_map_of_injective hinj).mp h1
    · intro hmem
      refine hperm.symm.subset ?_
      exact (List.mem_map_of_injective hinj).mpr hmem

/-- Witness for `glob_extension_filter` on a concrete folder with one matching
entry. -/
theorem glob_extension_filter_witness :
    joinPath (joinPath (str "d") (str "f")) (str "2.jpg") ∈ [str "d/f/2.jpg"] ↔
      str "2.jpg" ∈ matchedNames [str "2.jpg"] :=
  (glob_extension_filter [str "2.jpg"] (str "2.jpg")).2 (str "d") (str "f")
    [str "d/f/2.jpg"] (by decide)

/-- C10 counterexample: the superscript '²' (U+00B2) satisfies `str.isdigit`
but is not a `\d` decimal digit, so the piece "²" takes the `int(...)` branch
and `int` raises ValueError: `natural_sort_key` raises on the name "²", and
sorting a list containing that name raises — refuting "the folder and file
sorts never raise for any input names". -/
theorem sort_key_raises_on_superscript :
    natural_sort_key ['²'] = none ∧ sortNatural [['²']] = none := by decide

/-- C10 amended: for names in which every `isdigit`-true character is a `\d`
decimal digit — in particular all ASCII names — the key computation always
succeeds and yields a key alternating lowercased strings at even positions
with ints at odd positions in lockstep, so comparing two such keys never
compares an int against a str (the comparison is defined), and sorting any
list of such names never raises.  (For a name with a digit-like non-decimal
character such as '²' the key computation itself raises; see the
counterexample.) -/
theorem sort_key_total_on_decimal_names :
    (∀ s t : Str, (∀ c ∈ s, pyIsDigit c = true → reDigit c = true) →
      (∀ c ∈ t, pyIsDigit c = true → reDigit c = true) →
      ∃ ks kt, natural_sort_key s = some ks ∧ natural_sort_key t = some kt ∧
        AltKey ks ∧ AltKey kt ∧ (keyLt ks kt).isSome = true) ∧
    (∀ l : List Str, (∀ s ∈ l, ∀ c ∈ s, pyIsDigit c = true → reDigit c = true) →
      (sortNatural l).isSome = true) := by
  have hkey : ∀ s : Str, (∀ c ∈ s, pyIsDigit c = true → reDigit c = true) →
      ∃ k, natural_sort_key s = some k ∧ AltKey k := by
    intro s hs
    exact mapOpt_pieceVal_of_alt (splitDigits_alt s)
      (fun t ht c hc => hs c (splitDigits_chars s t ht c hc))
  constructor
  · intro s t hs ht
    rcases hkey s hs with ⟨ks, hks, haks⟩
    rcases hkey t ht with ⟨kt, hkt, hakt⟩
    exact ⟨ks, kt, hks, hkt, haks, hakt, keyLt_isSome_of_alt haks hakt⟩
  · intro l hl
    have hform : ∀ a ∈ l, keyPair a = some (a, (natural_sort_key a).getD []) := by
      intro a ha
      rcases hkey a (hl a ha) with ⟨k, hk, -⟩
      simp [keyPair, hk]
    unfold sortNatural
    rw [mapOpt_eq_some_of_forall hform]
    rfl

/-- Witness for `sort_key_total_on_decimal_names` on concrete ASCII names. -/
theorem sort_key_total_witness :
    (∃ ks kt, natural_sort_key (str "a1") = some ks ∧ natural_sort_key (str "b10") = some kt ∧
      AltKey ks ∧ AltKey kt ∧ (keyLt ks kt).isSome = true) ∧
    (sortNatural [str "x2", str "x10"]).isSome = true :=
  ⟨sort_key_total_on_decimal_names.1 (str "a1") (str "b10") (by decide) (by decide),
   sort_key_total_on_decimal_names.2 [str "x2", str "x10"] (by decide)⟩

/-- C8 counterexample: two filesystems with identical directory contents —
equal download dir, identical directory predicate and per-folder contents, and
listings that are permutations of each other — produce differently-ordered
image sequences, because the folder names f1 and f01 have equal natural-sort
keys and the stable sort preserves the `os.listdir` enumeration order between
equal keys.  The global page order is therefore not a pure function of the
names present under the root. -/
theorem enumeration_order_dependence :
    List.Perm fsTieA.listing fsTieB.listing ∧
    fsTieA.dir = fsTieB.dir ∧
    fsTieA.isDir = fsTieB.isDir ∧
    fsTieA.filesOf = fsTieB.filesOf ∧
    natural_sort_key (str "f1") = natural_sort_key (str "f01") ∧
    get_all_image_files_sorted fsTieA none
      = some [str "d/f1/1.jpg", str "d/f01/1.jpg"] ∧
    get_all_image_files_sorted fsTieB none
      = some [str "d/f01/1.jpg", str "d/f1/1.jpg"] ∧
    get_all_image_files_sorted fsTieA none ≠ get_all_image_files_sorted fsTieB none := by
  refine ⟨by decide, rfl, rfl, rfl, by decide, by decide, by decide, by decide⟩

/-- C8 amended: the ordered image sequence is independent of the enumeration
order the filesystem presents — two runs whose listings and per-folder
contents are permutations of each other, over the same directory structure,
produce identical sequences — provided distinct folder names have distinct
natural-sort keys and, within each folder, distinct matched file paths have
distinct keys.  (With equal keys, such as f1 vs f01, the stable sort keeps
enumeration order instead; see the counterexample.) -/
theorem order_pure_function_of_names (fs₁ fs₂ : FS) (ids : Option Str)
    (hdir : fs₁.dir = fs₂.dir)
    (hisdir : ∀ f, fs₁.isDir f = fs₂.isDir f)
    (hlist : List.Perm fs₁.listing fs₂.listing)
    (hfiles : ∀ f, List.Perm (fs₁.filesOf f) (fs₂.filesOf f))
    (hsubinj : ∀ a ∈ fs₁.listing.filter fs₁.isDir, ∀ b ∈ fs₁.listing.filter fs₁.isDir,
      natural_sort_key a = natural_sort_key b → a = b)
    (hfileinj : ∀ folder ∈ fs₁.listing,
      ∀ a ∈ (matchedNames (fs₁.filesOf folder)).map (joinPath (joinPath fs₁.dir folder)),
      ∀ b ∈ (matchedNames (fs₁.filesOf folder)).map (joinPath (joinPath fs₁.dir folder)),
      natural_sort_key a = natural_sort_key b → a = b) :
    get_all_image_files_sorted fs₁ ids = get_all_image_files_sorted fs₂ ids :=
  get_all_eq_of_perm fs₁ fs₂ ids hdir hisdir hlist hfiles hsubinj hfileinj

/-- Witness for `order_pure_function_of_names`: the same directory contents
enumerated in two different orders, with distinct keys throughout, yield the
same discovery output. -/
theorem order_pure_function_witness :
    get_all_image_files_sorted fsDisA none = get_all_image_files_sorted fsDisB none :=
  order_pure_function_of_names fsDisA fsDisB none rfl (fun _ => rfl) (by decide)
    (fun f => by
      by_cases h : f = str "a"
      · subst h
        decide
      · have h1 : fsDisA.filesOf f = [str "x.png"] := by
          unfold fsDisA
          simp [h]
        have h2 : fsDisB.filesOf f = [str "x.png"] := by
          unfold fsDisB
          simp [h]
        rw [h1, h2])
    (by decide) (by decide)
